import Mathlib

/-!
Verification development for the `git-graph-local` repository (Rust).

The Rust sources are embedded shallowly:

* `src/blame.rs`   → `LazyBlameInner`, `add_entry`, `blame_lines`, `lines`,
                     and the incremental-blame line parser (`parseChunkLine`).
* `src/sqlite.rs`  → `PathStore` / `cache_path` / `resolve_path` /
                     `CommitStore` / `update_cached_commit` / `cached_commit`
                     together with the LEB128 varint codec.
* `src/gitgraph.rs` → `load_blame` (blame-cache keying), `load_cached_commit`
                     (commit-change indexer) and `related_files` (the ranker).

Conventions of the embedding:

* Git object ids (`gix::ObjectId`, 20-byte shas) are modelled as `Nat`;
  byte strings (`BString` paths) as `List Nat`.
* `f32` weights are modelled by `F`, a surrogate carrying exact rationals
  plus the IEEE special values relevant to the code (`nan`, signed
  infinity): `0.0/0.0` is `nan` and `partial_cmp` on `nan` is `none`,
  which is what makes the `unwrap` in the final sort fallible.
* A Rust panic (`unwrap` on `None`, a failed `assert_ne!`, or
  `partial_cmp(..).unwrap()` on NaN) is the `Except.error Panic.panic`
  branch; `anyhow` storage errors do not arise in the pure store model.
-/

/-- A Rust panic (`unwrap`/`assert` failure). -/
inductive Panic where
  | panic
deriving DecidableEq, Repr

/-- `std::ops::Range<u32>`: a half-open line interval.  The source field
`end` is a Lean keyword, so it is called `stop` here. -/
structure LineRange where
  start : Nat
  stop : Nat
deriving DecidableEq, Repr, Inhabited

/-- `blame::BlameEntry` from `src/blame.rs`. -/
structure BlameEntry where
  range_in_blamed_file : LineRange
  range_in_original_file : LineRange
  commit_id : Nat
deriving DecidableEq, Repr, Inhabited

/-- `cache::CachedCommit` from `src/cache.rs`. -/
structure CachedCommit where
  changed_paths : List Nat
deriving DecidableEq, Repr

/-- Ordering of blame entries by `range_in_blamed_file.start`, the
comparator used by `sort_by` in `LazyBlameInner::blame_lines`. -/
def startLe (a b : BlameEntry) : Prop :=
  a.range_in_blamed_file.start ≤ b.range_in_blamed_file.start

instance : DecidableRel startLe := fun _ _ =>
  inferInstanceAs (Decidable (_ ≤ _))

instance : IsTotal BlameEntry startLe :=
  ⟨fun _ _ => Nat.le_total _ _⟩

instance : IsTrans BlameEntry startLe :=
  ⟨fun _ _ _ h₁ h₂ => Nat.le_trans h₁ h₂⟩

/-- `blame::LazyBlameInner` from `src/blame.rs`: the vector of entries, the
length of the prefix known to be sorted, and the readiness flag. -/
structure LazyBlameInner where
  blame : List BlameEntry
  sorted : Nat
  ready : Bool
deriving Repr

/-- `LazyBlameInner::new`. -/
def LazyBlameInner.new : LazyBlameInner :=
  { blame := [], sorted := 0, ready := false }

/-- `LazyBlame::add_entry`: pushes the entry at the end of the vector and
does not touch `sorted`. -/
def add_entry (s : LazyBlameInner) (e : BlameEntry) : LazyBlameInner :=
  { s with blame := s.blame ++ [e] }

/-- `LazyBlameInner::blame_lines`: if entries were appended since the last
sort, re-sort the whole vector by `range_in_blamed_file.start` and record
the new sorted length; returns the (now sorted) vector together with the
updated state.  The source uses the stable `Vec::sort_by`; `insertionSort`
is likewise stable. -/
def blame_lines (s : LazyBlameInner) : List BlameEntry × LazyBlameInner :=
  if s.sorted < s.blame.length then
    let b := s.blame.insertionSort startLe
    (b, { s with blame := b, sorted := b.length })
  else
    (s.blame, s)

/-- One operation against a `LazyBlame`: a producer `add_entry` or a reader
calling `lines()` (which snapshots `blame_lines`). -/
inductive BlameOp where
  | add (e : BlameEntry)
  | read
deriving Repr

/-- Run a sequence of operations against the inner state; `read` mutates the
state exactly the way `LazyBlame::lines` does (lazy re-sort). -/
def runOps (s : LazyBlameInner) : List BlameOp → LazyBlameInner
  | [] => s
  | BlameOp.add e :: rest => runOps (add_entry s e) rest
  | BlameOp.read :: rest => runOps (blame_lines s).2 rest

/-- The multiset of entries added by a sequence of operations. -/
def addedEntries : List BlameOp → List BlameEntry
  | [] => []
  | BlameOp.add e :: rest => e :: addedEntries rest
  | BlameOp.read :: rest => addedEntries rest

/-- `str::split(' ')`: split a line at every space, keeping empty
pieces. -/
def splitOnChar (sep : Char) : List Char → List (List Char)
  | [] => [[]]
  | c :: rest =>
    let r := splitOnChar sep rest
    if c = sep then [] :: r
    else
      match r with
      | [] => [[c]]
      | w :: ws => (c :: w) :: ws

/-- `str::starts_with`. -/
def leadsWith : List Char → List Char → Bool
  | [], _ => true
  | _ :: _, [] => false
  | p :: ps, c :: cs => p = c && leadsWith ps cs

/-- `native_git_blame::BlameChunk` from `src/blame.rs`; lines and names
are character lists (Rust `&str` / `BString`), the sha is kept as the raw
hex header token. -/
structure BlameChunk where
  sha : List Char
  line_original : Nat
  line_final : Nat
  num_lines : Nat
  previous_filename : Option (List Char)
deriving DecidableEq, Repr

/-- One step of the `native_git_blame::parse` loop for the case where a
chunk is currently open (`current_chunk.is_some()`, source lines 132–141):
a `previous ` line stores `line.split(' ').skip(1).next().unwrap()` — the
token right after the keyword — into `previous_filename`; a `filename `
line terminates the chunk (second component `true` means the chunk was
delivered to the consumer and the current chunk cleared); every other line
leaves the chunk unchanged.  A line starting with `previous ` splits into
at least two pieces, so the `unwrap` cannot fail and `getD` is exact. -/
def parseChunkLine (chunk : BlameChunk) (line : List Char) :
    Option BlameChunk × Bool :=
  if leadsWith "previous ".data line then
    let previous_filename := (splitOnChar ' ' line).getD 1 []
    (some { chunk with previous_filename := some previous_filename }, false)
  else if leadsWith "filename ".data line then
    (none, true)
  else
    (some chunk, false)

/-! ## The `f32` surrogate

Weights in the ranker are `f32`.  The arithmetic the ranker performs is:
sums of the exactly-intended constants `2.0 - d*0.2` (modelled exactly over
`ℚ`), the normalization ratio `touched_lines as f32 / largest as f32`
(which is `NaN` exactly when both are zero), one multiplication, and
`partial_cmp`, which is `none` on `NaN`. -/

/-- Surrogate for the `f32` values reachable in the ranker: a finite
rational, a signed infinity, or NaN. -/
inductive F where
  | fin (q : ℚ)
  | inf (pos : Bool)
  | nan
deriving DecidableEq, Repr

/-- `f32` addition (`weight += …`), restricted to the special values of
`F`; finite + finite is exact rational addition. -/
def F.add : F → F → F
  | F.nan, _ => F.nan
  | _, F.nan => F.nan
  | F.inf s, F.inf t => if s = t then F.inf s else F.nan
  | F.inf s, F.fin _ => F.inf s
  | F.fin _, F.inf t => F.inf t
  | F.fin a, F.fin b => F.fin (a + b)

/-- `f32` multiplication (`weight *= …`). -/
def F.mul : F → F → F
  | F.nan, _ => F.nan
  | _, F.nan => F.nan
  | F.inf s, F.inf t => F.inf (s = t)
  | F.inf s, F.fin b => if b = 0 then F.nan else F.inf (s = decide (0 < b))
  | F.fin a, F.inf t => if a = 0 then F.nan else F.inf (t = decide (0 < a))
  | F.fin a, F.fin b => F.fin (a * b)

/-- `f32::partial_cmp`: `none` exactly when a NaN is involved. -/
def cmpF : F → F → Option Ordering
  | F.nan, _ => none
  | _, F.nan => none
  | F.fin a, F.fin b => some (compare a b)
  | F.inf s, F.inf t =>
    some (if s = t then Ordering.eq else if s then Ordering.gt else Ordering.lt)
  | F.inf s, F.fin _ => some (if s then Ordering.gt else Ordering.lt)
  | F.fin _, F.inf t => some (if t then Ordering.lt else Ordering.gt)

/-- The cast-and-divide `touched_lines as f32 / largest as f32`:
`0.0 / 0.0` is NaN, `x / 0.0` with `x ≠ 0` is `+∞`, otherwise the exact
rational `a / b`. -/
def natDivF (a b : Nat) : F :=
  if b = 0 then
    if a = 0 then F.nan else F.inf true
  else
    F.fin ((a : ℚ) / (b : ℚ))

/-! ## `src/sqlite.rs`: the path / commit store

The two sqlite tables are modelled as in-memory lists:
`paths(id INTEGER PRIMARY KEY, path BLOB UNIQUE, renamed_to INTEGER)` as a
row list plus the next rowid, and `commits(sha BLOB PRIMARY KEY, changes
BLOB)` as an association list keyed by sha.  The source casts the i64
sqlite rowid to `u32`; ids are kept as `Nat` here, which is exact while
fewer than `2^32` paths are interned. -/

/-- A row of the `paths` table. -/
structure PathRow where
  id : Nat
  path : List Nat
  renamed_to : Option Nat
deriving DecidableEq, Repr

/-- The `paths` table: its rows and the next rowid sqlite would assign. -/
structure PathStore where
  rows : List PathRow
  nextId : Nat
deriving Repr

/-- The freshly created `paths` table (sqlite assigns rowid 1 first). -/
def PathStore.empty : PathStore :=
  { rows := [], nextId := 1 }

/-- Well-formedness of the `paths` table: the primary key is unique, the
unique index on `path` holds, and every rowid is below the next one. -/
def PathStore.WF (s : PathStore) : Prop :=
  (s.rows.map PathRow.id).Nodup ∧
  (s.rows.map PathRow.path).Nodup ∧
  ∀ r ∈ s.rows, r.id < s.nextId

/-- `SqliteCache::cache_path`: `INSERT OR IGNORE` followed, when the row
already existed, by a `SELECT id`.  Returns the interned id and the
updated table. -/
def cache_path (s : PathStore) (p : List Nat) : Nat × PathStore :=
  match s.rows.find? (fun r => r.path = p) with
  | some r => (r.id, s)
  | none =>
    (s.nextId,
     { rows := s.rows ++ [{ id := s.nextId, path := p, renamed_to := none }],
       nextId := s.nextId + 1 })

/-- `SqliteCache::cache_rename`: a no-op in the source (`TODO`). -/
def cache_rename (s : PathStore) (_old_path : List Nat) (_new_path : Nat) :
    PathStore :=
  s

/-- The recursion behind `SqliteCache::resolve_path`, following the
`renamed_to` forwarding chain; the fuel bounds the chain length (the
source recurses unboundedly, which agrees with this model on the acyclic
stores considered here). -/
def resolveGo (s : PathStore) : Nat → Nat → Option (List Nat)
  | 0, _ => none
  | fuel + 1, path_id =>
    match s.rows.find? (fun r => r.id = path_id) with
    | none => none
    | some row =>
      match row.renamed_to with
      | some next => resolveGo s fuel next
      | none => some row.path

/-- `SqliteCache::resolve_path`. -/
def resolve_path (s : PathStore) (path_id : Nat) : Option (List Nat) :=
  resolveGo s (s.rows.length + 1) path_id

/-- Unsigned LEB128 encoding of one integer, as written by
`VarIntWriter::write_varint`, with a structural fuel argument (the value
itself strictly bounds the number of 7-bit groups, so with `fuel ≥ n` the
fallback branch is unreachable and the function agrees with the unbounded
loop of the source). -/
def varintEncodeAux : Nat → Nat → List Nat
  | 0, n => [n]
  | fuel + 1, n =>
    if n < 128 then [n]
    else (n % 128 + 128) :: varintEncodeAux fuel (n / 128)

/-- Unsigned LEB128 encoding of one integer. -/
def varintEncode (n : Nat) : List Nat :=
  varintEncodeAux n n

/-- Reading one unsigned LEB128 integer (`VarIntReader::read_varint`):
returns the value and the remaining bytes, or `none` at end of input /
truncated varint. -/
def varintDecodeOne : List Nat → Nat → Nat → Option (Nat × List Nat)
  | [], _, _ => none
  | b :: rest, shift, acc =>
    if b < 128 then some (acc + b * 2 ^ shift, rest)
    else varintDecodeOne rest (shift + 7) (acc + (b - 128) * 2 ^ shift)

/-- The `while let Ok(p) = cursor.read_varint()` loop of
`SqliteCache::cached_commit`, with a structural fuel argument (each
successful read consumes at least one byte, so the byte count is enough
fuel and the function agrees with the unbounded loop of the source). -/
def varintDecodeAllAux : Nat → List Nat → List Nat
  | 0, _ => []
  | fuel + 1, bytes =>
    match varintDecodeOne bytes 0 0 with
    | none => []
    | some (v, rest) => v :: varintDecodeAllAux fuel rest

/-- Decode successive varints until the cursor is exhausted (or a varint
is truncated, which the source treats as end of input as well). -/
def varintDecodeAll (bytes : List Nat) : List Nat :=
  varintDecodeAllAux bytes.length bytes

/-- The serialization loop of `SqliteCache::update_cached_commit`. -/
def varintEncodeAll (l : List Nat) : List Nat :=
  l.foldl (fun acc p => acc ++ varintEncode p) []

/-- The `commits` table: association list `sha ↦ changes blob`. -/
abbrev CommitStore := List (Nat × List Nat)

/-- `SqliteCache::update_cached_commit`:
`INSERT … ON CONFLICT(sha) DO NOTHING` — a no-op when the sha is present. -/
def update_cached_commit (commits : CommitStore) (sha : Nat)
    (commit : CachedCommit) : CommitStore :=
  match commits.find? (fun row => row.1 = sha) with
  | some _ => commits
  | none => commits ++ [(sha, varintEncodeAll commit.changed_paths)]

/-- `SqliteCache::cached_commit`: look the blob up and decode it. -/
def cached_commit (commits : CommitStore) (sha : Nat) : Option CachedCommit :=
  (commits.find? (fun row => row.1 = sha)).map
    (fun row => { changed_paths := varintDecodeAll row.2 })

/-- `SqliteCache::is_commit_cached`. -/
def is_commit_cached (commits : CommitStore) (sha : Nat) : Bool :=
  (commits.find? (fun row => row.1 = sha)).isSome

/-! ## `src/gitgraph.rs`: blame cache, commit indexer, ranker -/

/-- `gitgraph::Candidate`. -/
structure Candidate where
  path : Option (List Nat)
  locations : List LineRange
  touched_lines : Nat
  weight : F
  commit : Nat
deriving DecidableEq, Repr

/-- The `blame_cache : DashMap<BString, Arc<LazyBlame>>` of `InnerGraph`.
An `Arc<LazyBlame>` handle is identified by the numeric token that was
allocated when it was created, so that "the same shared handle" is
pointer equality of tokens. -/
structure BlameCacheState where
  entries : List (List Nat × Nat)
  nextHandle : Nat
deriving DecidableEq, Repr

/-- Result of one `load_blame` call: the returned handle, the cache
afterwards, and whether an ingestion task was spawned. -/
structure LoadBlameOut where
  handle : Nat
  state : BlameCacheState
  spawned : Bool
deriving DecidableEq, Repr

/-- `InnerGraph::load_blame` (source lines 29–65): the dashmap `entry` API
keys on `filepath` alone.  An occupied entry returns the existing handle
and spawns nothing; a vacant entry inserts a fresh `LazyBlame`, spawns the
ingestion task (whose content — parsing, `add_entry`, recursive indexing —
is abstracted away here) and returns the new shared handle.  `revision`
and `recursive` only parameterize the spawned task, never the keying. -/
def load_blame (s : BlameCacheState) (_revision : Option Nat)
    (filepath : List Nat) (_recursive : Bool) : LoadBlameOut :=
  match s.entries.find? (fun e => e.1 = filepath) with
  | some e => { handle := e.2, state := s, spawned := false }
  | none =>
    { handle := s.nextHandle,
      state := { entries := s.entries ++ [(filepath, s.nextHandle)],
                 nextHandle := s.nextHandle + 1 },
      spawned := true }

/-- `gix` tree-entry modes. -/
inductive Mode where
  | tree
  | blob
  | blobExecutable
  | link
  | commitLink
deriving DecidableEq, Repr

/-- `EntryMode::is_blob_or_symlink`. -/
def Mode.is_blob_or_symlink : Mode → Bool
  | Mode.blob => true
  | Mode.blobExecutable => true
  | Mode.link => true
  | _ => false

/-- `gix::object::tree::diff::Change`, restricted to the fields the
indexer reads (`entry_mode` and the new `location`). -/
inductive Change where
  | addition (entry_mode : Mode) (location : List Nat)
  | deletion (entry_mode : Mode) (location : List Nat)
  | modification (entry_mode : Mode) (location : List Nat)
  | rewrite (entry_mode : Mode) (location : List Nat)
deriving DecidableEq, Repr

/-- A commit as `load_cached_commit` consumes it: its parent ids and the
change stream produced by diffing the first parent's tree against its
tree. -/
structure CommitData where
  parents : List Nat
  changes : List Change
deriving Repr

/-- The two persistent stores held by `InnerGraph.disk_cache`. -/
structure Stores where
  paths : PathStore
  commits : CommitStore
deriving Repr

/-- The `diff.for_each_to_obtain_tree` loop of `load_cached_commit`
(source lines 113–147): Addition / Modification / Rewrite entries whose
mode is blob-or-symlink intern their location and push the id; Deletion
entries are skipped ("not interesting"). -/
def collectChanged (s : PathStore) : List Change → List Nat × PathStore
  | [] => ([], s)
  | Change.addition m loc :: rest =>
    if m.is_blob_or_symlink then
      let r := cache_path s loc
      let r' := collectChanged r.2 rest
      (r.1 :: r'.1, r'.2)
    else collectChanged s rest
  | Change.deletion _ _ :: rest => collectChanged s rest
  | Change.modification m loc :: rest =>
    if m.is_blob_or_symlink then
      let r := cache_path s loc
      let r' := collectChanged r.2 rest
      (r.1 :: r'.1, r'.2)
    else collectChanged s rest
  | Change.rewrite m loc :: rest =>
    if m.is_blob_or_symlink then
      let r := cache_path s loc
      let r' := collectChanged r.2 rest
      (r.1 :: r'.1, r'.2)
    else collectChanged s rest

/-- `InnerGraph::load_cached_commit` (source lines 98–158): early-return
when the commit is already cached; `commit.parent_ids().next().unwrap()`
panics on a parentless commit; otherwise collect the changed paths from
the first-parent diff, sort them (`changed.sort()`), and store the record
idempotently. -/
def load_cached_commit (st : Stores) (sha : Nat) (commit : CommitData) :
    Except Panic Stores :=
  if is_commit_cached st.commits sha then Except.ok st
  else
    match commit.parents with
    | [] => Except.error Panic.panic
    | _ :: _ =>
      let r := collectChanged st.paths commit.changes
      let changed := r.1.insertionSort (fun a b => a ≤ b)
      Except.ok
        { paths := r.2,
          commits := update_cached_commit st.commits sha
            { changed_paths := changed } }

/-- The `binary_search_by(..).unwrap_or_else(|x| x)` of `related_files`
(source lines 194–198).  On a list sorted by `range_in_blamed_file.start`,
`std` binary search returns either the index of an entry whose start
equals `lineno` or the insertion index; both coincide with the leftmost
insertion index — the number of entries whose start is below `lineno` —
except that with several entries sharing the target start `std` may pick
any of them, which this model resolves to the leftmost. -/
def searchIdx (entries : List BlameEntry) (lineno : Nat) : Nat :=
  entries.countP (fun e => e.range_in_blamed_file.start < lineno)

/-- The window scanned around the insertion index `k`
(`BLAME_CHUNK_RANGE = 6`, source lines 200–208): indices from
`max(0, k - 3)` (truncated `Nat` subtraction) up to `min(k + 3, len)`
exclusive. -/
def windowIdxs (k len : Nat) : List Nat :=
  List.range' (k - 3) (min (k + 3) len - (k - 3))

/-- `|r - k|` as an exact rational. -/
def distQ (r k : Nat) : ℚ :=
  ((max r k - min r k : Nat) : ℚ)

/-- The weight contribution `2.0f32 - dist_from_search * 0.2`, modelled
exactly over `ℚ` (`0.2` is the rational `1/5`). -/
def wq (r k : Nat) : ℚ :=
  2 - distQ r k * (1 / 5)

/-- The candidate created by `or_insert_with` (source lines 216–224). -/
def newCandidate (sha : Nat) : Candidate :=
  { path := none, locations := [], touched_lines := 0, weight := F.fin 0,
    commit := sha }

/-- `candidate_files.entry(*path_id).or_insert_with(..)` followed by
`entry.weight += w`, on the association-list model of the hash map (keys
are unique; insertion order is immaterial because the ranker sorts by
`path_id` before use). -/
def updateCand (pid sha : Nat) (w : ℚ) :
    List (Nat × Candidate) → List (Nat × Candidate)
  | [] =>
    [(pid, { newCandidate sha with
               weight := (newCandidate sha).weight.add (F.fin w) })]
  | (q, c) :: rest =>
    if q = pid then (q, { c with weight := c.weight.add (F.fin w) }) :: rest
    else (q, c) :: updateCand pid sha w rest

/-- One iteration of the window loop (source lines 208–229): skip entries
whose commit has no cached record; otherwise add the sha to the
interesting set and fold the weight update over the commit's
`changed_paths`. -/
def phase1Step (cache : Nat → Option CachedCommit) (entries : List BlameEntry)
    (k : Nat) (acc : List (Nat × Candidate) × List Nat) (r : Nat) :
    List (Nat × Candidate) × List Nat :=
  let e := entries.getD r default
  match cache e.commit_id with
  | none => acc
  | some c =>
    let s := if e.commit_id ∈ acc.2 then acc.2 else acc.2 ++ [e.commit_id]
    (c.changed_paths.foldl
       (fun m pid => updateCand pid e.commit_id (wq r k) m) acc.1,
     s)

/-- The candidate-accumulation phase of `related_files` (steps 1–3 of the
ranking algorithm): the candidate map and the interesting-sha set after
the window loop. -/
def phase1 (cache : Nat → Option CachedCommit) (entries : List BlameEntry)
    (k : Nat) : List (Nat × Candidate) × List Nat :=
  (windowIdxs k entries.length).foldl (phase1Step cache entries k) ([], [])

/-- `InnerGraph::find_related_locations` (source lines 68–96), with the
per-path blame snapshot abstracted as `secondary` (it already reflects the
250 ms readiness timeout: whatever entries had been ingested when the
intersection ran).  Returns `none` when no entry's commit is interesting. -/
def find_related_locations (secondary : List Nat → List BlameEntry)
    (interesting : List Nat) (path : List Nat) : Option (List LineRange) :=
  let locs := (secondary path).filterMap
    (fun e => if e.commit_id ∈ interesting then some e.range_in_blamed_file
              else none)
  if locs.isEmpty then none else some locs

/-- Ordering of candidate pairs by `path_id` ascending
(`sort_by(|a, b| a.0.cmp(&b.0))`, source line 236). -/
def pidLe (a b : Nat × Candidate) : Prop :=
  a.1 ≤ b.1

instance : DecidableRel pidLe := fun _ _ =>
  inferInstanceAs (Decidable (_ ≤ _))

instance : IsTotal (Nat × Candidate) pidLe :=
  ⟨fun _ _ => Nat.le_total _ _⟩

instance : IsTrans (Nat × Candidate) pidLe :=
  ⟨fun _ _ _ h₁ h₂ => Nat.le_trans h₁ h₂⟩

/-- The fallible comparator
`b.1.weight.partial_cmp(&a.1.weight).unwrap()` of the weight-descending
sorts (source lines 237 and 280): panics when a weight is NaN. -/
def cmpWeightDesc (a b : Nat × Candidate) : Except Panic Ordering :=
  match cmpF b.2.weight a.2.weight with
  | some o => Except.ok o
  | none => Except.error Panic.panic

/-- Stable insertion of `x` (originally before every element of the list)
under a fallible comparator: `x` goes before the first element it does not
strictly follow. -/
def insertE (cmp : α → α → Except Panic Ordering) (x : α) :
    List α → Except Panic (List α)
  | [] => Except.ok [x]
  | y :: ys =>
    match cmp x y with
    | Except.error e => Except.error e
    | Except.ok o =>
      if o = Ordering.gt then
        match insertE cmp x ys with
        | Except.error e => Except.error e
        | Except.ok r => Except.ok (y :: r)
      else Except.ok (x :: y :: ys)

/-- A stable comparison sort under a fallible comparator, modelling
`sort_by` with a comparator that `unwrap`s a `partial_cmp`: on inputs
where every performed comparison is defined it sorts stably, and as soon
as a performed comparison involves NaN it panics, as any comparison sort
must on an all-NaN run. -/
def sortE (cmp : α → α → Except Panic Ordering) :
    List α → Except Panic (List α)
  | [] => Except.ok []
  | x :: xs =>
    match sortE cmp xs with
    | Except.error e => Except.error e
    | Except.ok r => insertE cmp x r

/-- Steps 5 of the ranking for one surviving candidate (source lines
243–267): resolve the path (a candidate whose id does not resolve keeps
`path = none`, empty locations and zero touched lines); otherwise record
the path, run the secondary-blame intersection, and on a non-empty result
set `locations` and `touched_lines` and check `assert_ne!(touched, 0)`.
Join order is immaterial: each task owns a distinct index. -/
def backfillOne (resolve : Nat → Option (List Nat))
    (secondary : List Nat → List BlameEntry) (interesting : List Nat)
    (item : Nat × Candidate) : Except Panic (Nat × Candidate) :=
  match resolve item.1 with
  | none => Except.ok item
  | some p =>
    let c := { item.2 with path := some p }
    match find_related_locations secondary interesting p with
    | none => Except.ok (item.1, c)
    | some locs =>
      let touched := (locs.map (fun l => l.stop - l.start)).sum
      if touched = 0 then Except.error Panic.panic
      else Except.ok (item.1, { c with locations := locs,
                                       touched_lines := touched })

/-- Monadic map over `Except`, short-circuiting on the first panic. -/
def mapExcept (f : α → Except Panic β) : List α → Except Panic (List β)
  | [] => Except.ok []
  | x :: xs =>
    match f x with
    | Except.error e => Except.error e
    | Except.ok y =>
      match mapExcept f xs with
      | Except.error e => Except.error e
      | Except.ok ys => Except.ok (y :: ys)

/-- Step 6 (source lines 270–278): `M = max(touched_lines)` over the
candidates and `weight *= touched_lines as f32 / M as f32`.  When every
`touched_lines` is zero the ratio is `0.0 / 0.0 = NaN`. -/
def normalizeStep (cands : List (Nat × Candidate)) : List (Nat × Candidate) :=
  let m := (cands.map (fun it => it.2.touched_lines)).foldl max 0
  cands.map (fun it =>
    (it.1, { it.2 with
               weight := it.2.weight.mul (natDivF it.2.touched_lines m) }))

/-- `LocalGitGraph::related_files` (source lines 187–293), parameterized
by the pure views of its environment: `cache` is `cached_commit` on the
commit store, `resolve` is `resolve_path` on the path store, `secondary`
gives the entries of the (possibly partial) secondary blame of a path,
and `snapshot` is `blame.lines()`.  Storage errors do not arise in the
pure store model, so the `Except` error case is exactly a panic.  The
`filled.isEmpty` branch models the `max_by(..).unwrap()` panic on an
empty candidate list, which is unreachable after the early return. -/
def related_files (cache : Nat → Option CachedCommit)
    (resolve : Nat → Option (List Nat))
    (secondary : List Nat → List BlameEntry)
    (snapshot : List BlameEntry) (lineno : Nat) :
    Except Panic (List Candidate) :=
  let k := searchIdx snapshot lineno
  let p1 := phase1 cache snapshot k
  if p1.1.isEmpty then Except.ok []
  else
    match sortE cmpWeightDesc (p1.1.insertionSort pidLe) with
    | Except.error e => Except.error e
    | Except.ok byWeight =>
      let top := byWeight.take 20
      match mapExcept (backfillOne resolve secondary p1.2) top with
      | Except.error e => Except.error e
      | Except.ok filled =>
        if filled.isEmpty then Except.error Panic.panic
        else
          match sortE cmpWeightDesc (normalizeStep filled) with
          | Except.error e => Except.error e
          | Except.ok ranked =>
            Except.ok (ranked.filterMap
              (fun it => if 0 < it.2.touched_lines then some it.2 else none))

/-! ## Specification-side helper definitions used by the theorems -/

deriving instance DecidableEq for Except

/-- The locations the indexer interns: those of Addition / Modification /
Rewrite entries whose mode is blob-or-symlink; Deletion entries contribute
nothing. -/
def qualifyingLocs : List Change → List (List Nat)
  | [] => []
  | Change.addition m loc :: rest =>
    if m.is_blob_or_symlink then loc :: qualifyingLocs rest
    else qualifyingLocs rest
  | Change.deletion _ _ :: rest => qualifyingLocs rest
  | Change.modification m loc :: rest =>
    if m.is_blob_or_symlink then loc :: qualifyingLocs rest
    else qualifyingLocs rest
  | Change.rewrite m loc :: rest =>
    if m.is_blob_or_symlink then loc :: qualifyingLocs rest
    else qualifyingLocs rest

/-- Interning a list of paths in order, threading the store. -/
def internFold (s : PathStore) : List (List Nat) → List Nat × PathStore
  | [] => ([], s)
  | p :: ps =>
    let r := cache_path s p
    let r' := internFold r.2 ps
    (r.1 :: r'.1, r'.2)

/-- Association-list lookup in the candidate map. -/
def lookupCand (pid : Nat) : List (Nat × Candidate) → Option Candidate
  | [] => none
  | (q, c) :: rest => if q = pid then some c else lookupCand pid rest

/-- Whether the window entry at index `r` contributes to the candidate of
path id `pid`: its commit has a cached record and that record's
`changed_paths` contains `pid`. -/
def contribP (cache : Nat → Option CachedCommit) (entries : List BlameEntry)
    (pid : Nat) (r : Nat) : Bool :=
  match cache (entries.getD r default).commit_id with
  | some c => pid ∈ c.changed_paths
  | none => false

/-- The window indices whose commit is cached and whose cached record
contains `pid` — the entries the claim says contribute to `pid`'s
candidate. -/
def contribIdxs (cache : Nat → Option CachedCommit) (entries : List BlameEntry)
    (k pid : Nat) : List Nat :=
  (windowIdxs k entries.length).filter (contribP cache entries pid)

/-- Total weight contributed by a set of window indices. -/
def wsum (k : Nat) (idxs : List Nat) : ℚ :=
  (idxs.map (fun r => wq r k)).sum

/-- The invariant tying a `LazyBlameInner` state to the entries added so
far: the vector is a permutation of them, the sorted-prefix counter never
exceeds the length, and whenever it covers the whole vector the vector is
sorted. -/
def LazyInv (s : LazyBlameInner) (added : List BlameEntry) : Prop :=
  s.blame.Perm added ∧ s.sorted ≤ s.blame.length ∧
    (s.blame.length ≤ s.sorted → List.Sorted startLe s.blame)

/-! ## Theorems -/

theorem lazyInv_new : LazyInv LazyBlameInner.new [] := by
  refine ⟨List.Perm.refl _, Nat.le_refl _, fun _ => List.sorted_nil⟩

theorem lazyInv_add {s : LazyBlameInner} {added : List BlameEntry}
    (h : LazyInv s added) (e : BlameEntry) :
    LazyInv (add_entry s e) (added ++ [e]) := by
  obtain ⟨hperm, hle, _⟩ := h
  refine ⟨hperm.append_right [e], ?_, ?_⟩
  · simp only [add_entry, List.length_append, List.length_cons]
    omega
  · intro hlen
    simp only [add_entry, List.length_append, List.length_cons] at hlen
    omega

theorem lazyInv_read {s : LazyBlameInner} {added : List BlameEntry}
    (h : LazyInv s added) : LazyInv (blame_lines s).2 added := by
  obtain ⟨hperm, hle, hsorted⟩ := h
  unfold blame_lines
  split
  · exact ⟨(List.perm_insertionSort startLe s.blame).trans hperm,
      Nat.le_refl _, fun _ => List.sorted_insertionSort startLe s.blame⟩
  · exact ⟨hperm, hle, hsorted⟩

theorem lazyInv_lines {s : LazyBlameInner} {added : List BlameEntry}
    (h : LazyInv s added) :
    (blame_lines s).1.Perm added ∧ List.Sorted startLe (blame_lines s).1 := by
  obtain ⟨hperm, hle, hsorted⟩ := h
  unfold blame_lines
  split
  · exact ⟨(List.perm_insertionSort startLe s.blame).trans hperm,
      List.sorted_insertionSort startLe s.blame⟩
  · exact ⟨hperm, hsorted (by omega)⟩

theorem runOps_inv (ops : List BlameOp) :
    ∀ (s : LazyBlameInner) (added : List BlameEntry), LazyInv s added →
      LazyInv (runOps s ops) (added ++ addedEntries ops) := by
  induction ops with
  | nil => intro s added h; simpa [runOps, addedEntries] using h
  | cons op rest ih =>
    intro s added h
    cases op with
    | add e =>
      have := ih (add_entry s e) (added ++ [e]) (lazyInv_add h e)
      simpa [runOps, addedEntries] using this
    | read =>
      have := ih (blame_lines s).2 added (lazyInv_read h)
      simpa [runOps, addedEntries] using this

/-- C8: after any sequence of `add_entry` calls (freely interleaved with
reader snapshots, which mutate the lazily-sorted state), `lines()` returns
a permutation of all entries added so far, sorted ascending by
`range_in_blamed_file.start` — no unsorted snapshot can escape. -/
theorem c8_lines_sorted_permutation (ops : List BlameOp) :
    (blame_lines (runOps LazyBlameInner.new ops)).1.Perm (addedEntries ops) ∧
      List.Sorted startLe (blame_lines (runOps LazyBlameInner.new ops)).1 := by
  have h := runOps_inv ops LazyBlameInner.new [] lazyInv_new
  rw [List.nil_append] at h
  exact lazyInv_lines h

theorem find?_append_none {α : Type} {l₁ : List α} (l₂ : List α)
    {p : α → Bool} (h : l₁.find? p = none) :
    (l₁ ++ l₂).find? p = l₂.find? p := by
  rw [List.find?_append, h, Option.none_or]

/-- C2: `load_blame` is keyed by the file path alone.  A path absent from
the cache gets a fresh handle, a spawned ingestion, and is recorded in the
cache; a second call for the same path — with any revision and any
`recursive` flag — returns the very same shared handle, spawns nothing,
and leaves the cache untouched. -/
theorem c2_load_blame_keyed_by_path (s : BlameCacheState)
    (r₁ r₂ : Option Nat) (p : List Nat) (b₁ b₂ : Bool) :
    (s.entries.find? (fun e => e.1 = p) = none →
      (load_blame s r₁ p b₁).spawned = true ∧
      (load_blame s r₁ p b₁).handle = s.nextHandle ∧
      (load_blame s r₁ p b₁).state.entries =
        s.entries ++ [(p, s.nextHandle)]) ∧
    load_blame (load_blame s r₁ p b₁).state r₂ p b₂ =
      { handle := (load_blame s r₁ p b₁).handle,
        state := (load_blame s r₁ p b₁).state,
        spawned := false } := by
  constructor
  · intro h
    simp [load_blame, h]
  · unfold load_blame
    cases hf : s.entries.find? (fun e => e.1 = p) with
    | some e => simp [hf]
    | none =>
      simp only [hf]
      rw [find?_append_none _ hf]
      simp

theorem c2_load_blame_keyed_by_path_witness :
    (load_blame { entries := [], nextHandle := 0 } none [1] true).spawned
        = true ∧
      load_blame
          (load_blame { entries := [], nextHandle := 0 } none [1] true).state
          (some 5) [1] false =
        { handle :=
            (load_blame { entries := [], nextHandle := 0 } none [1] true).handle,
          state :=
            (load_blame { entries := [], nextHandle := 0 } none [1] true).state,
          spawned := false } := by
  have h := c2_load_blame_keyed_by_path { entries := [], nextHandle := 0 }
    none (some 5) [1] true false
  exact ⟨(h.1 rfl).1, h.2⟩

/-- C9 (code bug): on a `previous <sha> <filename>` header line the parser
stores the *sha* token — `split(' ').skip(1).next()` — into the chunk's
`previous_filename` field, not the filename the field name (and the
`previous <sha> <filename>` wire format) promises. -/
theorem c9_previous_line_stores_sha_not_filename :
    parseChunkLine
        { sha := "e3a1".data, line_original := 1, line_final := 2,
          num_lines := 3, previous_filename := none }
        "previous 1234abcd old/name.rs".data =
      (some { sha := "e3a1".data, line_original := 1, line_final := 2,
              num_lines := 3, previous_filename := some "1234abcd".data },
       false) ∧
      "1234abcd".data ≠ "old/name.rs".data := by
  constructor
  · decide
  · decide

theorem varintEncodeAux_ne_nil (fuel n : Nat) : varintEncodeAux fuel n ≠ [] := by
  cases fuel with
  | zero => simp [varintEncodeAux]
  | succ f =>
    unfold varintEncodeAux
    split
    · simp
    · simp

theorem varintDecode_encodeAux :
    ∀ (fuel n : Nat), n ≤ fuel → ∀ (rest : List Nat) (shift acc : Nat),
      varintDecodeOne (varintEncodeAux fuel n ++ rest) shift acc =
        some (acc + n * 2 ^ shift, rest) := by
  intro fuel
  induction fuel with
  | zero =>
    intro n hn rest shift acc
    have hn0 : n = 0 := Nat.le_zero.mp hn
    subst hn0
    simp [varintEncodeAux, varintDecodeOne]
  | succ f ih =>
    intro n hn rest shift acc
    unfold varintEncodeAux
    split
    · simp [varintDecodeOne, *]
    · rename_i hge
      have h128 : 128 ≤ n := Nat.not_lt.mp hge
      have hdiv : n / 128 ≤ f := by
        have := Nat.div_lt_self (Nat.lt_of_lt_of_le (by norm_num) h128)
          (by norm_num : 1 < 128)
        omega
      simp only [List.cons_append, varintDecodeOne]
      rw [if_neg (by omega)]
      simp only [List.append_eq]
      rw [ih (n / 128) hdiv rest (shift + 7)
        (acc + (n % 128 + 128 - 128) * 2 ^ shift)]
      have hmd : n % 128 + 128 * (n / 128) = n := Nat.mod_add_div n 128
      have hpow : (2 : Nat) ^ (shift + 7) = 2 ^ shift * 128 := by
        rw [pow_add]
        norm_num
      have hsub : n % 128 + 128 - 128 = n % 128 := by omega
      rw [hsub, hpow]
      have hkey : acc + n % 128 * 2 ^ shift + n / 128 * (2 ^ shift * 128) =
          acc + n * 2 ^ shift := by
        calc acc + n % 128 * 2 ^ shift + n / 128 * (2 ^ shift * 128)
            = acc + (n % 128 + 128 * (n / 128)) * 2 ^ shift := by ring
          _ = acc + n * 2 ^ shift := by rw [hmd]
      rw [hkey]

theorem varintDecodeOne_encode (n : Nat) (rest : List Nat) :
    varintDecodeOne (varintEncode n ++ rest) 0 0 = some (n, rest) := by
  have h := varintDecode_encodeAux n n (Nat.le_refl n) rest 0 0
  simpa [varintEncode] using h

theorem varintEncodeAll_eq_flatten (l : List Nat) :
    varintEncodeAll l = (l.map varintEncode).flatten := by
  have haux : ∀ (l : List Nat) (acc : List Nat),
      l.foldl (fun acc p => acc ++ varintEncode p) acc =
        acc ++ (l.map varintEncode).flatten := by
    intro l
    induction l with
    | nil => intro acc; simp
    | cons x xs ih => intro acc; simp [ih, List.append_assoc]
  simpa [varintEncodeAll] using haux l []

theorem varintDecodeAllAux_encode :
    ∀ (l : List Nat) (fuel : Nat),
      ((l.map varintEncode).flatten).length ≤ fuel →
      varintDecodeAllAux fuel ((l.map varintEncode).flatten) = l := by
  intro l
  induction l with
  | nil =>
    intro fuel _
    cases fuel with
    | zero => simp [varintDecodeAllAux]
    | succ f => simp [varintDecodeAllAux, varintDecodeOne]
  | cons x xs ih =>
    intro fuel hlen
    have hx : (varintEncode x).length ≥ 1 := by
      have hne : varintEncode x ≠ [] := varintEncodeAux_ne_nil x x
      cases hc : varintEncode x with
      | nil => exact absurd hc hne
      | cons a b => simp
    simp only [List.map_cons, List.flatten_cons, List.length_append] at hlen
    simp only [List.map_cons, List.flatten_cons]
    cases fuel with
    | zero =>
      exfalso
      omega
    | succ f =>
      unfold varintDecodeAllAux
      rw [varintDecodeOne_encode]
      show x :: varintDecodeAllAux f (List.map varintEncode xs).flatten = x :: xs
      rw [ih f (by omega)]

/-- `decode(encode(L)) = L` for the varint sequence codec. -/
theorem varint_roundtrip (l : List Nat) :
    varintDecodeAll (varintEncodeAll l) = l := by
  rw [varintEncodeAll_eq_flatten]
  exact varintDecodeAllAux_encode l _ (Nat.le_refl _)

/-- C3 (counterexample): `update_cached_commit` is
`ON CONFLICT DO NOTHING`, so a successful update of a sha that already has
a record does *not* make `cached_commit` return the new record: after
storing `[1]` under sha 1, a second update with `[2]` succeeds yet the
read still returns `[1]`. -/
theorem c3_read_your_writes_counterexample :
    cached_commit
        (update_cached_commit
          (update_cached_commit ([] : CommitStore) 1 { changed_paths := [1] })
          1 { changed_paths := [2] }) 1 ≠
      some { changed_paths := [2] } := by
  decide

/-- C3 (amended): for a sha with no existing record, a successful
`update_cached_commit` followed by `cached_commit` returns exactly the
stored record — the varint encoding round-trips through the store. -/
theorem c3_update_then_read_roundtrip (commits : CommitStore) (sha : Nat)
    (rec : CachedCommit)
    (habsent : commits.find? (fun row => row.1 = sha) = none)
    (_hsorted : List.Sorted (fun a b => a ≤ b) rec.changed_paths)
    (_hbound : ∀ p ∈ rec.changed_paths, p < 2 ^ 32) :
    cached_commit (update_cached_commit commits sha rec) sha = some rec := by
  unfold update_cached_commit
  rw [habsent]
  unfold cached_commit
  rw [find?_append_none _ habsent]
  simp [List.find?, varint_roundtrip]

theorem c3_update_then_read_roundtrip_witness :
    cached_commit
        (update_cached_commit ([] : CommitStore) 3 { changed_paths := [1, 300] })
        3 =
      some { changed_paths := [1, 300] } :=
  c3_update_then_read_roundtrip [] 3 { changed_paths := [1, 300] } rfl
    (by decide) (by decide)

theorem cache_path_WF {s : PathStore} (hwf : s.WF) (p : List Nat) :
    (cache_path s p).2.WF := by
  obtain ⟨hid, hpath, hlt⟩ := hwf
  unfold cache_path
  cases hf : s.rows.find? (fun r => r.path = p) with
  | some r => exact ⟨hid, hpath, hlt⟩
  | none =>
    have hnp : ∀ r ∈ s.rows, r.path ≠ p := by
      intro r hr
      have := List.find?_eq_none.mp hf r hr
      simpa using this
    refine ⟨?_, ?_, ?_⟩
    · simp only [List.map_append, List.map_cons, List.map_nil]
      rw [List.nodup_append]
      refine ⟨hid, List.nodup_singleton _, ?_⟩
      intro x hx hx'
      simp only [List.mem_singleton] at hx'
      obtain ⟨r, hr, hrid⟩ := List.mem_map.mp hx
      have := hlt r hr
      omega
    · simp only [List.map_append, List.map_cons, List.map_nil]
      rw [List.nodup_append]
      refine ⟨hpath, List.nodup_singleton _, ?_⟩
      intro x hx hx'
      simp only [List.mem_singleton] at hx'
      obtain ⟨r, hr, hrp⟩ := List.mem_map.mp hx
      exact hnp r hr (by rw [hrp, hx'])
    · intro r hr
      rcases List.mem_append.mp hr with hold | hnew
      · exact Nat.lt_succ_of_lt (hlt r hold)
      · simp only [List.mem_singleton] at hnew
        rw [hnew]
        exact Nat.lt_succ_self _

theorem cache_path_row {s : PathStore} (p : List Nat)
    (hnr : ∀ r ∈ s.rows, r.renamed_to = none) :
    ∃ row ∈ (cache_path s p).2.rows,
      row.id = (cache_path s p).1 ∧ row.path = p ∧ row.renamed_to = none := by
  unfold cache_path
  cases hf : s.rows.find? (fun r => r.path = p) with
  | some r =>
    have hmem := List.mem_of_find?_eq_some hf
    have h0 := List.find?_some hf
    have hrp : r.path = p := by simpa using h0
    exact ⟨r, hmem, rfl, hrp, hnr r hmem⟩
  | none =>
    exact ⟨{ id := s.nextId, path := p, renamed_to := none },
      by simp, rfl, rfl, rfl⟩

theorem cache_path_none {s : PathStore} (p : List Nat)
    (hnr : ∀ r ∈ s.rows, r.renamed_to = none) :
    ∀ r ∈ (cache_path s p).2.rows, r.renamed_to = none := by
  unfold cache_path
  cases hf : s.rows.find? (fun r => r.path = p) with
  | some r => exact hnr
  | none =>
    intro r hr
    rcases List.mem_append.mp hr with hold | hnew
    · exact hnr r hold
    · simp only [List.mem_singleton] at hnew
      rw [hnew]

theorem resolve_path_of_row {s : PathStore} (hwf : s.WF)
    {row : PathRow} (hmem : row ∈ s.rows) (hnone : row.renamed_to = none) :
    resolve_path s row.id = some row.path := by
  have hsome : (s.rows.find? (fun r => r.id = row.id)).isSome := by
    rw [List.find?_isSome]
    exact ⟨row, hmem, by simp⟩
  obtain ⟨row', hfind⟩ := Option.isSome_iff_exists.mp hsome
  have hrow' : row' ∈ s.rows := List.mem_of_find?_eq_some hfind
  have h0 := List.find?_some hfind
  have hid' : row'.id = row.id := by simpa using h0
  have heq : row' = row := List.inj_on_of_nodup_map hwf.1 hrow' hmem hid'
  subst heq
  unfold resolve_path
  show resolveGo s (s.rows.length + 1) row'.id = some row'.path
  unfold resolveGo
  rw [hfind]
  show (match row'.renamed_to with
        | some next => resolveGo s s.rows.length next
        | none => some row'.path) = some row'.path
  rw [hnone]

theorem cache_path_of_mem {s : PathStore} (hwf : s.WF) {row : PathRow}
    (hmem : row ∈ s.rows) : cache_path s row.path = (row.id, s) := by
  have hsome : (s.rows.find? (fun r => r.path = row.path)).isSome := by
    rw [List.find?_isSome]
    exact ⟨row, hmem, by simp⟩
  obtain ⟨row', hfind⟩ := Option.isSome_iff_exists.mp hsome
  have hrow' : row' ∈ s.rows := List.mem_of_find?_eq_some hfind
  have h0 := List.find?_some hfind
  have hp' : row'.path = row.path := by simpa using h0
  have heq : row' = row := List.inj_on_of_nodup_map hwf.2.1 hrow' hmem hp'
  unfold cache_path
  rw [hfind, heq]

/-- C7: with rename recording a no-op (so `renamed_to` is never set),
resolving a freshly interned path returns the path itself, and interning
the same path again yields the same id without changing the store. -/
theorem c7_intern_resolve_roundtrip (s : PathStore) (p : List Nat)
    (hwf : s.WF) (hnr : ∀ r ∈ s.rows, r.renamed_to = none) :
    resolve_path (cache_path s p).2 (cache_path s p).1 = some p ∧
    cache_path (cache_path s p).2 p = ((cache_path s p).1, (cache_path s p).2) ∧
    ∀ (q : List Nat) (n : Nat), cache_rename s q n = s := by
  obtain ⟨row, hmem, hid, hpath, hnone⟩ := cache_path_row p hnr
  have hwf' : (cache_path s p).2.WF := cache_path_WF hwf p
  refine ⟨?_, ?_, fun _ _ => rfl⟩
  · have := resolve_path_of_row hwf' hmem hnone
    rw [hid, hpath] at this
    exact this
  · have := cache_path_of_mem hwf' hmem
    rw [hpath, hid] at this
    exact this

theorem c7_intern_resolve_roundtrip_witness :
    resolve_path (cache_path PathStore.empty [7]).2
        (cache_path PathStore.empty [7]).1 = some [7] ∧
      cache_path (cache_path PathStore.empty [7]).2 [7] =
        ((cache_path PathStore.empty [7]).1,
          (cache_path PathStore.empty [7]).2) ∧
      ∀ (q : List Nat) (n : Nat), cache_rename PathStore.empty q n =
        PathStore.empty :=
  c7_intern_resolve_roundtrip PathStore.empty [7]
    ⟨List.nodup_nil, List.nodup_nil, by simp [PathStore.empty]⟩
    (by simp [PathStore.empty])

theorem cache_path_row_plain (s : PathStore) (p : List Nat) :
    ∃ row ∈ (cache_path s p).2.rows,
      row.id = (cache_path s p).1 ∧ row.path = p := by
  unfold cache_path
  cases hf : s.rows.find? (fun r => r.path = p) with
  | some r =>
    have hmem := List.mem_of_find?_eq_some hf
    have h0 := List.find?_some hf
    have hrp : r.path = p := by simpa using h0
    exact ⟨r, hmem, rfl, hrp⟩
  | none =>
    exact ⟨{ id := s.nextId, path := p, renamed_to := none }, by simp, rfl, rfl⟩

theorem cache_path_mem_rows {s : PathStore} {r : PathRow} (p : List Nat)
    (h : r ∈ s.rows) : r ∈ (cache_path s p).2.rows := by
  unfold cache_path
  cases hf : s.rows.find? (fun r => r.path = p) with
  | some v => exact h
  | none => exact List.mem_append_left _ h

theorem cache_path_ne {s : PathStore} (hwf : s.WF) {row : PathRow}
    (hmem : row ∈ s.rows) {q : List Nat} (hq : q ≠ row.path) :
    (cache_path s q).1 ≠ row.id := by
  unfold cache_path
  cases hf : s.rows.find? (fun r => r.path = q) with
  | some r =>
    have hrmem := List.mem_of_find?_eq_some hf
    have h0 := List.find?_some hf
    have hrq : r.path = q := by simpa using h0
    intro heq
    have heqrow : r = row := List.inj_on_of_nodup_map hwf.1 hrmem hmem heq
    exact hq (by rw [← hrq, heqrow])
  | none =>
    show s.nextId ≠ row.id
    have := hwf.2.2 row hmem
    omega

theorem internFold_WF {s : PathStore} (hwf : s.WF) (ps : List (List Nat)) :
    (internFold s ps).2.WF := by
  induction ps generalizing s with
  | nil => exact hwf
  | cons q rest ih => exact ih (cache_path_WF hwf q)

theorem internFold_avoid {s : PathStore} (hwf : s.WF) {row : PathRow}
    (hmem : row ∈ s.rows) (ps : List (List Nat)) (hp : row.path ∉ ps) :
    row.id ∉ (internFold s ps).1 := by
  induction ps generalizing s with
  | nil => simp [internFold]
  | cons q rest ih =>
    simp only [List.mem_cons, not_or] at hp
    simp only [internFold, List.mem_cons, not_or]
    refine ⟨?_, ?_⟩
    · exact fun h => cache_path_ne hwf hmem (fun hqp => hp.1 hqp.symm) h.symm
    · exact ih (cache_path_WF hwf q) (cache_path_mem_rows q hmem) hp.2

theorem internFold_nodup {s : PathStore} (hwf : s.WF)
    {ps : List (List Nat)} (hnd : ps.Nodup) : (internFold s ps).1.Nodup := by
  induction ps generalizing s with
  | nil => simp [internFold]
  | cons q rest ih =>
    simp only [internFold]
    rw [List.nodup_cons]
    obtain ⟨row, hmem, hid, hpath⟩ := cache_path_row_plain s q
    refine ⟨?_, ih (cache_path_WF hwf q) (List.nodup_cons.mp hnd).2⟩
    have havoid := internFold_avoid (cache_path_WF hwf q) hmem rest
      (by rw [hpath]; exact (List.nodup_cons.mp hnd).1)
    rw [hid] at havoid
    exact havoid

theorem collectChanged_eq (cs : List Change) (s : PathStore) :
    collectChanged s cs = internFold s (qualifyingLocs cs) := by
  induction cs generalizing s with
  | nil => rfl
  | cons ch rest ih =>
    cases ch with
    | addition m loc =>
      by_cases hm : m.is_blob_or_symlink = true
      · simp [collectChanged, qualifyingLocs, internFold, hm, ih]
      · simp [collectChanged, qualifyingLocs, hm, ih]
    | deletion m loc =>
      simp [collectChanged, qualifyingLocs, ih]
    | modification m loc =>
      by_cases hm : m.is_blob_or_symlink = true
      · simp [collectChanged, qualifyingLocs, internFold, hm, ih]
      · simp [collectChanged, qualifyingLocs, hm, ih]
    | rewrite m loc =>
      by_cases hm : m.is_blob_or_symlink = true
      · simp [collectChanged, qualifyingLocs, internFold, hm, ih]
      · simp [collectChanged, qualifyingLocs, hm, ih]

/-- C6: for a commit the indexer actually processes (not yet cached, has a
first parent), the stored record's `changed_paths` are sorted ascending,
duplicate-free (the interned ids of distinct locations are distinct), and
are exactly — up to the sorting permutation — the interned ids of the
Addition / Modification / Rewrite blob-or-symlink locations of the diff;
Deletion entries contribute nothing (they are absent from
`qualifyingLocs`). -/
theorem c6_stored_record_sorted_nodup_exact (st : Stores) (sha : Nat)
    (commit : CommitData) (hwf : st.paths.WF)
    (hnd : (qualifyingLocs commit.changes).Nodup)
    (hpar : commit.parents ≠ [])
    (hnew : is_commit_cached st.commits sha = false) :
    ∃ st', load_cached_commit st sha commit = Except.ok st' ∧
      ∃ rec, cached_commit st'.commits sha = some rec ∧
        List.Sorted (fun a b => a ≤ b) rec.changed_paths ∧
        rec.changed_paths.Nodup ∧
        rec.changed_paths.Perm
          (internFold st.paths (qualifyingLocs commit.changes)).1 := by
  have habsent : st.commits.find? (fun row => row.1 = sha) = none := by
    cases h : st.commits.find? (fun row => row.1 = sha) with
    | none => rfl
    | some v =>
      rw [is_commit_cached, h] at hnew
      simp at hnew
  have hids : (collectChanged st.paths commit.changes).1 =
      (internFold st.paths (qualifyingLocs commit.changes)).1 := by
    rw [collectChanged_eq]
  unfold load_cached_commit
  rw [if_neg (by simp [hnew])]
  cases hp : commit.parents with
  | nil => exact absurd hp hpar
  | cons a as =>
    refine ⟨_, rfl, ?_⟩
    set chg : List Nat := List.insertionSort (fun a b => a ≤ b)
      (collectChanged st.paths commit.changes).1 with hchg
    have hstore : cached_commit
        (update_cached_commit st.commits sha { changed_paths := chg }) sha =
        some { changed_paths := chg } := by
      unfold cached_commit update_cached_commit
      rw [habsent, find?_append_none _ habsent]
      simp [List.find?, varint_roundtrip]
    refine ⟨_, hstore, ?_, ?_, ?_⟩
    · exact List.sorted_insertionSort _ _
    · have hnodup : (internFold st.paths (qualifyingLocs commit.changes)).1.Nodup :=
        internFold_nodup hwf hnd
      rw [← hids] at hnodup
      exact (List.perm_insertionSort _ _).symm.nodup hnodup
    · rw [← hids]
      exact List.perm_insertionSort _ _

theorem c6_stored_record_sorted_nodup_exact_witness :
    ∃ st', load_cached_commit { paths := PathStore.empty, commits := [] } 7
        { parents := [3],
          changes := [Change.addition Mode.blob [20],
            Change.deletion Mode.blob [9],
            Change.modification Mode.tree [21],
            Change.rewrite Mode.link [22]] } = Except.ok st' ∧
      ∃ rec, cached_commit st'.commits 7 = some rec ∧
        List.Sorted (fun a b => a ≤ b) rec.changed_paths ∧
        rec.changed_paths.Nodup ∧
        rec.changed_paths.Perm
          (internFold PathStore.empty
            (qualifyingLocs [Change.addition Mode.blob [20],
              Change.deletion Mode.blob [9],
              Change.modification Mode.tree [21],
              Change.rewrite Mode.link [22]])).1 :=
  c6_stored_record_sorted_nodup_exact
    { paths := PathStore.empty, commits := [] } 7 _
    ⟨List.nodup_nil, List.nodup_nil, by simp [PathStore.empty]⟩
    (by decide) (by decide) rfl

theorem not_cached_find?_eq_none {commits : CommitStore} {sha : Nat}
    (h : is_commit_cached commits sha = false) :
    commits.find? (fun row => row.1 = sha) = none := by
  cases hf : commits.find? (fun row => row.1 = sha) with
  | none => rfl
  | some v =>
    rw [is_commit_cached, hf] at h
    simp at h

theorem phase1_interesting_isSome (cache : Nat → Option CachedCommit)
    (entries : List BlameEntry) (k : Nat) :
    ∀ x ∈ (phase1 cache entries k).2, (cache x).isSome := by
  have haux : ∀ (idxs : List Nat) (acc : List (Nat × Candidate) × List Nat),
      (∀ x ∈ acc.2, (cache x).isSome) →
      ∀ x ∈ (idxs.foldl (phase1Step cache entries k) acc).2,
        (cache x).isSome := by
    intro idxs
    induction idxs with
    | nil => intro acc h; exact h
    | cons r rest ih =>
      intro acc h
      rw [List.foldl_cons]
      apply ih
      cases hc : cache (entries.getD r default).commit_id with
      | none =>
        simp only [phase1Step, hc]
        exact h
      | some c =>
        simp only [phase1Step, hc]
        intro x hx
        by_cases hmem : (entries.getD r default).commit_id ∈ acc.2
        · rw [if_pos hmem] at hx
          exact h x hx
        · rw [if_neg hmem] at hx
          rcases List.mem_append.mp hx with h1 | h2
          · exact h x h1
          · simp only [List.mem_singleton] at h2
            rw [h2, hc]
            rfl
  intro x hx
  exact haux _ ([], []) (by simp) x hx

/-- C10: `load_cached_commit` succeeds exactly when the commit has a first
parent: for a not-yet-cached root (parentless) commit,
`parent_ids().next().unwrap()` panics before anything is stored, so
`cached_commit` keeps returning `none` for it and the ranker's window
loop never treats such a sha as interesting; for any commit with a first
parent, the indexer returns successfully. -/
theorem c10_root_commit_never_indexed (st : Stores) (sha : Nat)
    (commit : CommitData) (hroot : commit.parents = [])
    (hnc : is_commit_cached st.commits sha = false) :
    load_cached_commit st sha commit = Except.error Panic.panic ∧
    cached_commit st.commits sha = none ∧
    (∀ c₂ : CommitData, c₂.parents ≠ [] →
      ∃ st₂, load_cached_commit st sha c₂ = Except.ok st₂) ∧
    ∀ (entries : List BlameEntry) (lineno : Nat),
      sha ∉ (phase1 (cached_commit st.commits) entries
        (searchIdx entries lineno)).2 := by
  have habsent := not_cached_find?_eq_none hnc
  have hnone : cached_commit st.commits sha = none := by
    rw [cached_commit, habsent]
    rfl
  refine ⟨?_, hnone, ?_, ?_⟩
  · unfold load_cached_commit
    rw [if_neg (by simp [hnc]), hroot]
  · intro c₂ h₂
    unfold load_cached_commit
    rw [if_neg (by simp [hnc])]
    cases hp : c₂.parents with
    | nil => exact absurd hp h₂
    | cons a as => exact ⟨_, rfl⟩
  · intro entries lineno hmem
    have hs := phase1_interesting_isSome (cached_commit st.commits) entries
      (searchIdx entries lineno) sha hmem
    rw [hnone] at hs
    simp at hs

theorem c10_root_commit_never_indexed_witness :
    load_cached_commit { paths := PathStore.empty, commits := [] } 1
        { parents := [], changes := [] } = Except.error Panic.panic ∧
      cached_commit ([] : CommitStore) 1 = none ∧
      (∀ c₂ : CommitData, c₂.parents ≠ [] →
        ∃ st₂, load_cached_commit { paths := PathStore.empty, commits := [] } 1
          c₂ = Except.ok st₂) ∧
      ∀ (entries : List BlameEntry) (lineno : Nat),
        1 ∉ (phase1 (cached_commit ([] : CommitStore)) entries
          (searchIdx entries lineno)).2 :=
  c10_root_commit_never_indexed { paths := PathStore.empty, commits := [] } 1
    { parents := [], changes := [] } rfl rfl

theorem foldl_phase1Step_all_none (cache : Nat → Option CachedCommit)
    (entries : List BlameEntry) (k : Nat) (idxs : List Nat)
    (hall : ∀ r ∈ idxs, cache (entries.getD r default).commit_id = none) :
    ∀ acc, idxs.foldl (phase1Step cache entries k) acc = acc := by
  induction idxs with
  | nil => intro acc; rfl
  | cons r rest ih =>
    intro acc
    rw [List.foldl_cons]
    have hr : cache (entries.getD r default).commit_id = none :=
      hall r (by simp)
    have hstep : phase1Step cache entries k acc r = acc := by
      simp only [phase1Step, hr]
    rw [hstep]
    exact ih (fun x hx => hall x (by simp [hx])) acc

/-- C5 (counterexample): a target line strictly beyond every line covered
by the blame does *not* force an empty result — the insertion index is
`len`, so the window still covers the last entries, and when one of their
commits is cached the ranker produces candidates. -/
theorem c5_beyond_eof_counterexample :
    related_files (fun c => if c = 100 then some { changed_paths := [7] }
        else none)
      (fun i => if i = 7 then some [7] else none)
      (fun _ => [{ range_in_blamed_file := { start := 1, stop := 3 },
                   range_in_original_file := { start := 1, stop := 3 },
                   commit_id := 100 }])
      [{ range_in_blamed_file := { start := 1, stop := 2 },
         range_in_original_file := { start := 1, stop := 2 },
         commit_id := 100 }] 5 ≠ Except.ok [] := by
  with_unfolding_all decide

/-- C5 (amended): for a target line strictly greater than every blame
entry's start (so in particular any line beyond the last covered line),
the window is the suffix of up to three trailing entries; if none of
their commits are present in the commit cache, `related_files` returns an
empty candidate list with no error and no panic. -/
theorem c5_amended_beyond_eof_uncached_window (cache : Nat → Option CachedCommit)
    (resolve : Nat → Option (List Nat))
    (secondary : List Nat → List BlameEntry)
    (entries : List BlameEntry) (lineno : Nat)
    (hbeyond : ∀ e ∈ entries, e.range_in_blamed_file.start < lineno)
    (hwin : ∀ r ∈ windowIdxs entries.length entries.length,
      cache (entries.getD r default).commit_id = none) :
    related_files cache resolve secondary entries lineno = Except.ok [] := by
  have hk : searchIdx entries lineno = entries.length := by
    rw [searchIdx]
    exact List.countP_eq_length.mpr (fun e he => by simpa using hbeyond e he)
  have hp1 : phase1 cache entries (searchIdx entries lineno) = ([], []) := by
    rw [hk, phase1]
    exact foldl_phase1Step_all_none cache entries entries.length _ hwin ([], [])
  simp [related_files, hp1]

theorem c5_amended_beyond_eof_uncached_window_witness :
    related_files (fun _ => none) (fun _ => none) (fun _ => [])
      [{ range_in_blamed_file := { start := 1, stop := 2 },
         range_in_original_file := { start := 1, stop := 2 },
         commit_id := 100 }] 5 = Except.ok [] :=
  c5_amended_beyond_eof_uncached_window (fun _ => none) (fun _ => none)
    (fun _ => [])
    [{ range_in_blamed_file := { start := 1, stop := 2 },
       range_in_original_file := { start := 1, stop := 2 },
       commit_id := 100 }] 5 (by decide) (by decide)

/-- C4 (code bug): when at least two candidates survive step 5 with
`touched_lines == 0` (here: both secondary blames match no interesting
commit), the normalization computes `0.0 / 0.0 = NaN` for every weight
and the final `sort_by(|a,b| b.weight.partial_cmp(&a.weight).unwrap())`
panics on the first NaN comparison instead of returning an empty list. -/
theorem c4_all_zero_touched_panics :
    related_files
      (fun c => if c = 100 then some { changed_paths := [5] }
        else if c = 101 then some { changed_paths := [6] } else none)
      (fun i => if i = 5 then some [5]
        else if i = 6 then some [6] else none)
      (fun _ => [])
      [{ range_in_blamed_file := { start := 1, stop := 2 },
         range_in_original_file := { start := 1, stop := 2 },
         commit_id := 100 },
       { range_in_blamed_file := { start := 2, stop := 3 },
         range_in_original_file := { start := 2, stop := 3 },
         commit_id := 101 }] 1 = Except.error Panic.panic := by
  with_unfolding_all decide

theorem F.add_fin_add (x : F) (a b : ℚ) :
    F.add (F.add x (F.fin a)) (F.fin b) = F.add x (F.fin (a + b)) := by
  cases x <;> simp [F.add, add_assoc]

theorem lookupCand_updateCand_self (pid sha : Nat) (w : ℚ)
    (m : List (Nat × Candidate)) :
    lookupCand pid (updateCand pid sha w m) =
      some (match lookupCand pid m with
            | none => { newCandidate sha with
                weight := F.add (newCandidate sha).weight (F.fin w) }
            | some c => { c with weight := F.add c.weight (F.fin w) }) := by
  induction m with
  | nil => simp [updateCand, lookupCand]
  | cons qc rest ih =>
    obtain ⟨q, c⟩ := qc
    by_cases hq : q = pid
    · subst hq
      simp [updateCand, lookupCand]
    · simp [updateCand, lookupCand, hq, ih]

theorem lookupCand_updateCand_other {pid q : Nat} (h : q ≠ pid) (sha : Nat)
    (w : ℚ) (m : List (Nat × Candidate)) :
    lookupCand pid (updateCand q sha w m) = lookupCand pid m := by
  induction m with
  | nil => simp [updateCand, lookupCand, h]
  | cons pc rest ih =>
    obtain ⟨p, c⟩ := pc
    by_cases hp : p = q
    · subst hp
      simp [updateCand, lookupCand, h, ih]
    · simp [updateCand, lookupCand, hp, ih]

theorem lookupCand_foldPaths (sha : Nat) (w : ℚ) (paths : List Nat)
    (hnd : paths.Nodup) (pid : Nat) (m : List (Nat × Candidate)) :
    lookupCand pid (paths.foldl (fun m q => updateCand q sha w m) m) =
      if pid ∈ paths then
        some (match lookupCand pid m with
              | none => { newCandidate sha with
                  weight := F.add (newCandidate sha).weight (F.fin w) }
              | some c => { c with weight := F.add c.weight (F.fin w) })
      else lookupCand pid m := by
  induction paths generalizing m with
  | nil => simp
  | cons q rest ih =>
    rw [List.foldl_cons]
    have hnd' := List.nodup_cons.mp hnd
    by_cases hq : q = pid
    · subst hq
      rw [ih hnd'.2, if_neg hnd'.1, lookupCand_updateCand_self,
        if_pos (List.mem_cons_self q rest)]
    · have hne : pid ≠ q := fun h => hq h.symm
      by_cases hmem : pid ∈ rest
      · rw [ih hnd'.2, if_pos hmem, lookupCand_updateCand_other hq,
          if_pos (List.mem_cons_of_mem q hmem)]
      · have hnotin : pid ∉ q :: rest := by
          intro hcon
          rcases List.mem_cons.mp hcon with h1 | h1
          · exact hne h1
          · exact hmem h1
        rw [ih hnd'.2, if_neg hmem, lookupCand_updateCand_other hq,
          if_neg hnotin]

theorem lookupCand_foldWindow (cache : Nat → Option CachedCommit)
    (entries : List BlameEntry) (k pid : Nat)
    (hnd : ∀ sha c, cache sha = some c → c.changed_paths.Nodup)
    (idxs : List Nat) :
    ∀ (m : List (Nat × Candidate)) (S : List Nat),
      lookupCand pid ((idxs.foldl (phase1Step cache entries k) (m, S)).1) =
        match idxs.filter (contribP cache entries pid), lookupCand pid m with
        | [], o => o
        | r₀ :: rs, none =>
          some { path := none, locations := [], touched_lines := 0,
                 weight := F.add (F.fin 0) (F.fin (wsum k (r₀ :: rs))),
                 commit := (entries.getD r₀ default).commit_id }
        | cs, some c =>
          some { c with weight := F.add c.weight (F.fin (wsum k cs)) } := by
  induction idxs with
  | nil =>
    intro m S
    simp only [List.foldl_nil, List.filter_nil]
  | cons r rest ih =>
    intro m S
    rw [List.foldl_cons]
    cases hc : cache (entries.getD r default).commit_id with
    | none =>
      have hstep : phase1Step cache entries k (m, S) r = (m, S) := by
        simp only [phase1Step, hc]
      have hcp : contribP cache entries pid r = false := by
        simp only [contribP, hc]
      rw [hstep, List.filter_cons, if_neg (by simp [hcp])]
      exact ih m S
    | some c =>
      have hpnd : c.changed_paths.Nodup := hnd _ c hc
      have hstep : phase1Step cache entries k (m, S) r =
          (c.changed_paths.foldl
            (fun m q =>
              updateCand q (entries.getD r default).commit_id (wq r k) m) m,
           if (entries.getD r default).commit_id ∈ S then S
           else S ++ [(entries.getD r default).commit_id]) := by
        simp only [phase1Step, hc]
      rw [hstep]
      by_cases hmem : pid ∈ c.changed_paths
      · have hcp : contribP cache entries pid r = true := by
          simp only [contribP, hc]
          exact decide_eq_true hmem
        rw [List.filter_cons, if_pos hcp]
        rw [ih _ _]
        rw [lookupCand_foldPaths _ _ _ hpnd, if_pos hmem]
        cases hlm : lookupCand pid m with
        | none =>
          cases hcs : rest.filter (contribP cache entries pid) with
          | nil => simp [wsum, newCandidate]
          | cons r₁ rs₁ => simp [wsum, newCandidate, F.add_fin_add]
        | some c₀ =>
          cases hcs : rest.filter (contribP cache entries pid) with
          | nil => simp [wsum]
          | cons r₁ rs₁ => simp [wsum, F.add_fin_add]
      · have hcp : contribP cache entries pid r = false := by
          simp only [contribP, hc]
          exact decide_eq_false hmem
        rw [ih _ _]
        rw [lookupCand_foldPaths _ _ _ hpnd]
        rw [if_neg hmem]
        rw [List.filter_cons, if_neg (by simp [hcp])]

/-- C1: in the candidate-accumulation phase of `related_files` with
insertion index `k`, a path id acquires a candidate exactly when some
window index in `[max(0, k-3), min(len, k+3))` has a cached commit whose
`changed_paths` contain it; its weight is the sum of `2.0 - 0.2·|r-k|`
over exactly those contributing indices, and its record carries
`path = none`, empty locations, zero touched lines, and
`commit` = the sha of the first contributing entry. -/
theorem c1_window_weight_characterization (cache : Nat → Option CachedCommit)
    (entries : List BlameEntry) (lineno pid : Nat)
    (hnd : ∀ sha c, cache sha = some c → c.changed_paths.Nodup) :
    lookupCand pid (phase1 cache entries (searchIdx entries lineno)).1 =
      match contribIdxs cache entries (searchIdx entries lineno) pid with
      | [] => none
      | r₀ :: rs =>
        some { path := none, locations := [], touched_lines := 0,
               weight := F.fin (wsum (searchIdx entries lineno) (r₀ :: rs)),
               commit := (entries.getD r₀ default).commit_id } := by
  have h := lookupCand_foldWindow cache entries (searchIdx entries lineno) pid
    hnd (windowIdxs (searchIdx entries lineno) entries.length) [] []
  rw [phase1, h, contribIdxs]
  cases hcs : (windowIdxs (searchIdx entries lineno) entries.length).filter
      (contribP cache entries pid) with
  | nil => rfl
  | cons r₀ rs => simp [lookupCand, F.add, zero_add]

theorem c1_window_weight_characterization_witness :
    lookupCand 4
        (phase1
          (fun sha => if sha = 100 then some { changed_paths := [3, 4] }
            else if sha = 101 then some { changed_paths := [4] } else none)
          [{ range_in_blamed_file := { start := 1, stop := 2 },
             range_in_original_file := { start := 1, stop := 2 },
             commit_id := 100 },
           { range_in_blamed_file := { start := 2, stop := 3 },
             range_in_original_file := { start := 2, stop := 3 },
             commit_id := 101 }]
          (searchIdx
            [{ range_in_blamed_file := { start := 1, stop := 2 },
               range_in_original_file := { start := 1, stop := 2 },
               commit_id := 100 },
             { range_in_blamed_file := { start := 2, stop := 3 },
               range_in_original_file := { start := 2, stop := 3 },
               commit_id := 101 }] 2)).1 =
      some { path := none, locations := [], touched_lines := 0,
             weight := F.fin (19 / 5), commit := 100 } := by
  have hnd : ∀ sha c,
      (fun sha => if sha = 100 then some { changed_paths := [3, 4] }
        else if sha = 101 then some { changed_paths := [4] }
        else none : Nat → Option CachedCommit) sha = some c →
      c.changed_paths.Nodup := by
    intro sha c h
    dsimp only at h
    by_cases h1 : sha = 100
    · rw [if_pos h1] at h
      cases h
      decide
    · rw [if_neg h1] at h
      by_cases h2 : sha = 101
      · rw [if_pos h2] at h
        cases h
        decide
      · rw [if_neg h2] at h
        cases h
  exact (c1_window_weight_characterization _ _ 2 4 hnd).trans
    (by with_unfolding_all decide)
